import Mathlib

/-!
Shallow embedding of the text-editor core of `src/main.rs` (a kilo-style
terminal editor): rows with cached renders, tab-expansion coordinate
translation, viewport scrolling, incremental search, and file load/save.
Strings are modelled as `List Char`; `usize` as `Nat`, with Rust's panics
(index out of bounds, `usize` subtraction underflow in a debug build /
the ensuing wild index in release) made explicit through `Option` results
wherever a claim depends on them.
-/

/-- `const TAB_STOP: usize = 8` (src/main.rs:685). -/
def TAB_STOP : Nat := 8

/-- One step of the rendered-width accumulation shared by
`CursorController::get_render_x` (src/main.rs:111-121) and
`Row::get_row_content_x` (src/main.rs:666-682): a tab advances the
rendered column to the next multiple of `TAB_STOP`
(`render_x + (TAB_STOP - 1) - (render_x % TAB_STOP) + 1`), any other
character advances it by one. -/
def renderWidthStep (rx : Nat) (c : Char) : Nat :=
  if c = '\t' then rx + (TAB_STOP - 1) - rx % TAB_STOP + 1 else rx + 1

/-- The character loop of `EditorRows::render_row` (src/main.rs:705-726):
`index` counts the characters pushed so far; a tab pushes one space and
then the `while index % TAB_STOP != 0` loop pushes further spaces, in
total `(TAB_STOP - (index + 1) % TAB_STOP) % TAB_STOP` of them, leaving
`index` at the next multiple of `TAB_STOP`; any other character is pushed
as itself. -/
def renderGo : List Char → Nat → List Char
  | [], _ => []
  | c :: rest, index =>
    if c = '\t' then
      ' ' :: List.replicate ((TAB_STOP - (index + 1) % TAB_STOP) % TAB_STOP) ' ' ++
        renderGo rest (index + 1 + (TAB_STOP - (index + 1) % TAB_STOP) % TAB_STOP)
    else
      c :: renderGo rest (index + 1)

/-- `EditorRows::render_row` (src/main.rs:705) as the rendered string it
stores into `row.render`, starting from `index = 0`. -/
def render_row (content : List Char) : List Char :=
  renderGo content 0

/-- `struct Row` (src/main.rs:643): the logical content of a line plus its
cached rendered form. -/
structure Row where
  row_content : List Char
  render : List Char
  deriving DecidableEq, Repr

/-- `CursorController::get_render_x` (src/main.rs:111) as a function of the
row content and `cursor_x`: folds `renderWidthStep` over the characters
strictly before `cursor_x`.  Rust slices `row_content[..cursor_x]`, which
panics when `cursor_x` exceeds the line length — a reachable state, since
the PageUp/PageDown handler (src/main.rs:856-865) rewrites `cursor_y`
without clamping `cursor_x`.  `scroll`, the one caller, models that panic
explicitly and uses this function only under `cursor_x ≤` line length,
where `take` coincides with the Rust slice. -/
def get_render_x (content : List Char) (cursor_x : Nat) : Nat :=
  (content.take cursor_x).foldl renderWidthStep 0

/-- The loop of `Row::get_row_content_x` (src/main.rs:666-682): walk the
characters accumulating the rendered width with `renderWidthStep` (the
tab update `(TAB_STOP - 1) - current % TAB_STOP` followed by `+ 1`),
returning the index of the first character whose accumulated width
exceeds the target `render_x`; falling off the end of the loop returns 0
(src/main.rs:681). -/
def getRowContentXGo (render_x : Nat) : List Char → Nat → Nat → Nat
  | [], _, _ => 0
  | c :: rest, current, cursor =>
    let current2 := renderWidthStep current c
    if current2 > render_x then cursor
    else getRowContentXGo render_x rest current2 (cursor + 1)

/-- `Row::get_row_content_x` (src/main.rs:666). -/
def Row.get_row_content_x (row : Row) (render_x : Nat) : Nat :=
  getRowContentXGo render_x row.row_content 0 0

/-- `Row::insert_char` (src/main.rs:656): `String::insert` at `i`, then a
re-render.  `String::insert` panics past the end of the string (`none`). -/
def Row.insert_char (row : Row) (i : Nat) (ch : Char) : Option Row :=
  if i ≤ row.row_content.length then
    let content := row.row_content.take i ++ ch :: row.row_content.drop i
    some { row_content := content, render := render_row content }
  else none

/-- `Row::delete_char` (src/main.rs:661): `String::remove` at `i`, then a
re-render.  `String::remove` panics at or past the end of the string
(`none`). -/
def Row.delete_char (row : Row) (i : Nat) : Option Row :=
  if i < row.row_content.length then
    let content := row.row_content.take i ++ row.row_content.drop (i + 1)
    some { row_content := content, render := render_row content }
  else none

/-- `struct EditorRows` (src/main.rs:687): the line buffer plus the
optional associated file path (paths are opaque to the core and modelled
as `List Char`). -/
structure EditorRows where
  row_contents : List Row
  filename : Option (List Char)
  deriving DecidableEq, Repr

/-- `EditorRows::number_of_rows` (src/main.rs:771). -/
def EditorRows.number_of_rows (er : EditorRows) : Nat :=
  er.row_contents.length

/-- `EditorRows::get_editor_row` (src/main.rs:767): `&self.row_contents[at]`.
Every caller in scope guards `at` against `number_of_rows`; out of range
the Rust index would panic, and the model returns an empty row. -/
def EditorRows.get_editor_row (er : EditorRows) (i : Nat) : Row :=
  er.row_contents.getD i { row_content := [], render := [] }

/-- `EditorRows::get_row` (src/main.rs:775). -/
def EditorRows.get_row (er : EditorRows) (i : Nat) : List Char :=
  (er.get_editor_row i).row_content

/-- `EditorRows::insert_row` (src/main.rs:728): build the row, render it,
and `Vec::insert` it at `i` (`Vec::insert` panics past the end: `none`). -/
def EditorRows.insert_row (er : EditorRows) (i : Nat) (contents : List Char) : Option EditorRows :=
  if i ≤ er.row_contents.length then
    let new_row : Row := { row_content := contents, render := render_row contents }
    some { er with row_contents := er.row_contents.take i ++ new_row :: er.row_contents.drop i }
  else none

/-- `EditorRows::join_adjacent_rows` (src/main.rs:735): `Vec::remove` row
`i` (panics at or past the end), append its content to row `i - 1`
(`i == 0` underflows the `usize` subtraction and the row lookup panics:
`none`), and re-render the joined row. -/
def EditorRows.join_adjacent_rows (er : EditorRows) (i : Nat) : Option EditorRows :=
  if i < er.row_contents.length ∧ 1 ≤ i then
    let current := er.row_contents.getD i { row_content := [], render := [] }
    let removed := er.row_contents.take i ++ er.row_contents.drop (i + 1)
    let previous := removed.getD (i - 1) { row_content := [], render := [] }
    let content := previous.row_content ++ current.row_content
    let joined : Row := { row_content := content, render := render_row content }
    some { er with row_contents := removed.set (i - 1) joined }
  else none

/-- `struct CursorController` (src/main.rs:88). -/
structure CursorController where
  cursor_x : Nat
  cursor_y : Nat
  screen_columns : Nat
  screen_rows : Nat
  row_offset : Nat
  column_offset : Nat
  render_x : Nat
  deriving DecidableEq, Repr

/-- `CursorController::scroll` (src/main.rs:171-188): recompute `render_x`
from the current row (0 past the last row), then clamp the row offset and
the column offset so the cursor is inside the window.  When the cursor is
on a real row but `cursor_x` exceeds the line length, the slice
`row_content[..cursor_x]` inside `get_render_x` panics (`none`) — a state
the PageUp/PageDown handler can produce, since it never clamps
`cursor_x`. -/
def CursorController.scroll (cc : CursorController) (er : EditorRows) :
    Option CursorController :=
  let rxOpt : Option Nat :=
    if cc.cursor_y < er.number_of_rows then
      if cc.cursor_x ≤ (er.get_editor_row cc.cursor_y).row_content.length then
        some (get_render_x (er.get_editor_row cc.cursor_y).row_content cc.cursor_x)
      else none
    else some 0
  match rxOpt with
  | none => none
  | some rx =>
    let ro1 := min cc.row_offset cc.cursor_y
    let ro2 :=
      if cc.cursor_y ≥ ro1 + cc.screen_rows then cc.cursor_y - cc.screen_rows + 1 else ro1
    let co1 := min cc.column_offset rx
    let co2 := if rx ≥ co1 + cc.screen_columns then rx - cc.screen_columns + 1 else co1
    some { cc with render_x := rx, row_offset := ro2, column_offset := co2 }

/-- `enum SearchDirection` (src/main.rs:222). -/
inductive SearchDirection where
  | forward
  | backward
  deriving DecidableEq, Repr

/-- `struct SearchIndex` (src/main.rs:227). -/
structure SearchIndex where
  x_index : Nat
  y_index : Nat
  x_direction : Option SearchDirection
  y_direction : Option SearchDirection
  deriving DecidableEq, Repr

/-- `SearchIndex::reset` (src/main.rs:244). -/
def SearchIndex.reset (_s : SearchIndex) : SearchIndex :=
  { x_index := 0, y_index := 0, x_direction := none, y_direction := none }

/-- The crossterm key codes the editor core distinguishes. -/
inductive KeyCode where
  | up
  | down
  | left
  | right
  | home
  | endKey
  | enter
  | esc
  | backspace
  | delete
  | tab
  | char (c : Char)
  deriving DecidableEq, Repr

/-- The fields of `struct Output` (src/main.rs:257) that the buffer,
cursor and search core reads and writes (the screen buffer and the status
message are presentation only). -/
structure Output where
  cursor_controller : CursorController
  editor_rows : EditorRows
  search_index : SearchIndex
  dirty : Nat
  deriving DecidableEq, Repr

/-- `Output::insert_char` (src/main.rs:294-311): append a fresh empty row
first when the cursor sits on the virtual row past the last line, then
insert into the current row and advance the cursor; `dirty` counts both
the appended row and the edit. -/
def Output.insert_char (o : Output) (ch : Char) : Option Output :=
  let n := o.editor_rows.number_of_rows
  let step1 : Option (EditorRows × Nat) :=
    if o.cursor_controller.cursor_y = n then
      match o.editor_rows.insert_row n [] with
      | some er => some (er, o.dirty + 1)
      | none => none
    else some (o.editor_rows, o.dirty)
  match step1 with
  | none => none
  | some (er1, d1) =>
    if o.cursor_controller.cursor_y < er1.number_of_rows then
      match (er1.get_editor_row o.cursor_controller.cursor_y).insert_char
          o.cursor_controller.cursor_x ch with
      | some row =>
        some { o with
          editor_rows := { er1 with
            row_contents := er1.row_contents.set o.cursor_controller.cursor_y row },
          cursor_controller := { o.cursor_controller with
            cursor_x := o.cursor_controller.cursor_x + 1 },
          dirty := d1 + 1 }
      | none => none
    else none

/-- `Output::insert_newline` (src/main.rs:313-338): at column 0 insert a
fresh empty row above; otherwise split the current row at the cursor
(slicing `row_content[cursor_x..]` panics past the end of the line),
re-render the truncated half and insert the remainder below.  The cursor
moves to column 0 of the next row. -/
def Output.insert_newline (o : Output) : Option Output :=
  let cx := o.cursor_controller.cursor_x
  let cy := o.cursor_controller.cursor_y
  let step1 : Option EditorRows :=
    if cx = 0 then
      o.editor_rows.insert_row cy []
    else
      if cy < o.editor_rows.number_of_rows then
        let current := o.editor_rows.get_editor_row cy
        if cx ≤ current.row_content.length then
          let new_row_content := current.row_content.drop cx
          let truncated := current.row_content.take cx
          let current2 : Row := { row_content := truncated, render := render_row truncated }
          let er := { o.editor_rows with
            row_contents := o.editor_rows.row_contents.set cy current2 }
          er.insert_row (cy + 1) new_row_content
        else none
      else none
  match step1 with
  | none => none
  | some er1 =>
    some { o with
      editor_rows := er1,
      cursor_controller := { o.cursor_controller with cursor_x := 0, cursor_y := cy + 1 },
      dirty := o.dirty + 1 }

/-- `Output::delete_char` (src/main.rs:340-365): a no-op on the virtual
row past the last line; with `cursor_x > 0` delete the character to the
left; at `cursor_x == 0` the code reads `get_row(cursor_y - 1)`, so when
`cursor_y == 0` the `usize` subtraction wraps and the row lookup panics
(`none`); otherwise the row is joined into the previous one. -/
def Output.delete_char (o : Output) : Option Output :=
  if o.cursor_controller.cursor_y = o.editor_rows.number_of_rows then
    some o
  else if 0 < o.cursor_controller.cursor_x then
    match (o.editor_rows.get_editor_row o.cursor_controller.cursor_y).delete_char
        (o.cursor_controller.cursor_x - 1) with
    | some row =>
      some { o with
        editor_rows := { o.editor_rows with
          row_contents := o.editor_rows.row_contents.set o.cursor_controller.cursor_y row },
        cursor_controller := { o.cursor_controller with
          cursor_x := o.cursor_controller.cursor_x - 1 },
        dirty := o.dirty + 1 }
    | none => none
  else if o.cursor_controller.cursor_y = 0 then
    none
  else
    let previous_len := (o.editor_rows.get_row (o.cursor_controller.cursor_y - 1)).length
    match o.editor_rows.join_adjacent_rows o.cursor_controller.cursor_y with
    | some er =>
      some { o with
        editor_rows := er,
        cursor_controller := { o.cursor_controller with
          cursor_x := previous_len,
          cursor_y := o.cursor_controller.cursor_y - 1 },
        dirty := o.dirty + 1 }
    | none => none

/-- `str::find` after `i` characters were already consumed: the index of
the first occurrence of `pat` counted from the original start. -/
def findFromAux (pat : List Char) : List Char → Nat → Option Nat
  | [], i => if pat.isPrefixOf [] then some i else none
  | c :: t, i => if pat.isPrefixOf (c :: t) then some i else findFromAux pat t (i + 1)

/-- `str::find`, as called on a row's render in `Output::find_callback`
(src/main.rs:420, 426). -/
def strFind (hay pat : List Char) : Option Nat :=
  findFromAux pat hay 0

/-- `str::rfind` after `i` characters were already consumed, carrying the
best (that is, latest) occurrence seen so far. -/
def rfindAux (pat : List Char) : List Char → Nat → Option Nat → Option Nat
  | [], i, best => if pat.isPrefixOf [] then some i else best
  | c :: t, i, best =>
    rfindAux pat t (i + 1) (if pat.isPrefixOf (c :: t) then some i else best)

/-- `str::rfind`, as called on a row's render in `Output::find_callback`
(src/main.rs:430): the index of the last occurrence of `pat`. -/
def strRFind (hay pat : List Char) : Option Nat :=
  rfindAux pat hay 0 none

/-- The match arm of `Output::find_callback` that fires when a row yields
a match (src/main.rs:441-448): the cursor jumps to the match (the rendered
column converted back to a logical one with `get_row_content_x`), the
search indices record it, and `row_offset` is set past the last row to
force the next `scroll` to bring the match into view. -/
def applyMatch (o : Output) (row : Row) (row_index idx : Nat) : Output :=
  { o with
    cursor_controller := { o.cursor_controller with
      cursor_y := row_index,
      cursor_x := row.get_row_content_x idx,
      row_offset := o.editor_rows.number_of_rows },
    search_index := { o.search_index with y_index := row_index, x_index := idx } }

/-- The `for i in 0..number_of_rows()` scan inside `Output::find_callback`
(src/main.rs:392-450), with `rem` iterations remaining and `i` the loop
counter.  A `break` returns the state built so far; `none` models the
panic of the slice `render[..x_index]` when `x_index` exceeds the render's
length.  With no row direction and no column direction the scan stores `i`
into `y_index` before using it (src/main.rs:395-399). -/
def findLoop (kw : List Char) (n : Nat) : Output → Nat → Nat → Option Output
  | st, _, 0 => some st
  | st, i, rem + 1 =>
    let step1 : Option (Output × Nat) :=
      match st.search_index.y_direction with
      | none =>
        let st1 := if st.search_index.x_direction = none then
            { st with search_index := { st.search_index with y_index := i } }
          else st
        some (st1, st1.search_index.y_index)
      | some SearchDirection.forward => some (st, st.search_index.y_index + i + 1)
      | some SearchDirection.backward =>
        let res := st.search_index.y_index - i
        if res = 0 then none else some (st, res - 1)
    match step1 with
    | none => some st
    | some (st1, row_index) =>
      if row_index > n - 1 then some st1
      else
        let row := st1.editor_rows.get_editor_row row_index
        match st1.search_index.x_direction with
        | none =>
          match strFind row.render kw with
          | none => findLoop kw n st1 (i + 1) rem
          | some idx => some (applyMatch st1 row row_index idx)
        | some SearchDirection.forward =>
          let start := min row.render.length (st1.search_index.x_index + 1)
          match (strFind (row.render.drop start) kw).map (fun j => j + start) with
          | none => some st1
          | some idx => some (applyMatch st1 row row_index idx)
        | some SearchDirection.backward =>
          if st1.search_index.x_index ≤ row.render.length then
            match strRFind (row.render.take st1.search_index.x_index) kw with
            | none => some st1
            | some idx => some (applyMatch st1 row row_index idx)
          else none

/-- `Output::find_callback` (src/main.rs:367-453): Esc and Enter reset the
search state; any other keystroke clears both directions, re-arms them
from the arrow keys, and scans the rows for `keyword`. -/
def find_callback (o : Output) (keyword : List Char) (key_code : KeyCode) : Option Output :=
  match key_code with
  | KeyCode.esc => some { o with search_index := o.search_index.reset }
  | KeyCode.enter => some { o with search_index := o.search_index.reset }
  | _ =>
    let si1 := { o.search_index with x_direction := none, y_direction := none }
    let si2 :=
      match key_code with
      | KeyCode.down => { si1 with y_direction := some SearchDirection.forward }
      | KeyCode.up => { si1 with y_direction := some SearchDirection.backward }
      | KeyCode.left => { si1 with x_direction := some SearchDirection.backward }
      | KeyCode.right => { si1 with x_direction := some SearchDirection.forward }
      | _ => si1
    let o1 := { o with search_index := si2 }
    findLoop keyword o1.editor_rows.number_of_rows o1 0 o1.editor_rows.number_of_rows

/-- `str::split_inclusive('\n')` as used by `str::lines`: chunks that each
end with the newline that closes them; the last chunk may lack one; the
empty string has no chunks. -/
def splitInclusiveNl : List Char → List (List Char)
  | [] => []
  | c :: rest =>
    if c = '\n' then [c] :: splitInclusiveNl rest
    else
      match splitInclusiveNl rest with
      | [] => [[c]]
      | s :: ss => (c :: s) :: ss

/-- The per-chunk map of `str::lines`: strip the trailing `'\n'`, and one
`'\r'` just before it, from a chunk; a chunk with no trailing newline is
kept as is. -/
def linesMap (chunk : List Char) : List Char :=
  if chunk.getLast? = some '\n' then
    let stripped := chunk.dropLast
    if stripped.getLast? = some '\r' then stripped.dropLast else stripped
  else chunk

/-- `str::lines`, called by `EditorRows::from_file` (src/main.rs:753). -/
def rustLines (s : List Char) : List (List Char) :=
  (splitInclusiveNl s).map linesMap

/-- The outcomes of `EditorRows::from_file` (src/main.rs:747) as observed
by a caller: `ioError` is the recoverable result the design documents for
an unreadable path, `panicked` a process abort out of `expect`. -/
inductive LoadResult where
  | ok (rows : EditorRows)
  | ioError
  | panicked
  deriving DecidableEq, Repr

/-- `EditorRows::from_file` (src/main.rs:747-761).  `readResult` is what
`fs::read_to_string` produced (`none`: the path cannot be read); the code
calls `.expect("Unable to read file")` on it, then builds one rendered row
per line of the contents. -/
def EditorRows.from_file (path : List Char) (readResult : Option (List Char)) : LoadResult :=
  match readResult with
  | none => LoadResult.panicked
  | some contents =>
    LoadResult.ok
      { filename := some path,
        row_contents := (rustLines contents).map
          (fun it => { row_content := it, render := render_row it }) }

/-- `[&str]::join("\n")` as used by `EditorRows::save` (src/main.rs:792):
the rows joined with single newline separators and no trailing newline. -/
def joinNl : List (List Char) → List Char
  | [] => []
  | [l] => l
  | l :: ls => l ++ '\n' :: joinNl ls

/-- The outcomes of `EditorRows::save` (src/main.rs:779): the `Err` with
"no file name specified", or `Ok(byte count)`. -/
inductive SaveResult where
  | noFileNameError
  | ok (bytes : Nat)
  deriving DecidableEq, Repr

/-- `EditorRows::save` (src/main.rs:779-798) against a one-file
filesystem: `fs` holds the bytes of the associated file before the call
and the second component those after it (`set_len` to the new length
followed by `write_all` replaces the contents exactly). -/
def EditorRows.save (er : EditorRows) (fs : List Char) : SaveResult × List Char :=
  match er.filename with
  | none => (SaveResult.noFileNameError, fs)
  | some _ =>
    let contents := joinNl (er.row_contents.map Row.row_content)
    (SaveResult.ok contents.length, contents)

/-- The Ctrl-S branch of `Editor::process_keypress` (src/main.rs:884-889)
once a filename exists: run `save`; on success report the byte count and
set `dirty` to 0; an error propagates out through `?` (`none`). -/
def processSaveKeypress (o : Output) (fs : List Char) : Option (Output × List Char) :=
  match o.editor_rows.save fs with
  | (SaveResult.ok _, fs2) => some ({ o with dirty := 0 }, fs2)
  | (SaveResult.noFileNameError, _) => none

/-- A row's cached render is exactly the re-derived render of its
content. -/
def rowWellRendered (r : Row) : Prop :=
  r.render = render_row r.row_content

/-- A row as every constructor in the code builds it: content plus its
freshly derived render. -/
def mkRow (content : List Char) : Row :=
  { row_content := content, render := render_row content }

/-- A one-line sample buffer used to instantiate theorems with
hypotheses at concrete states. -/
def sampleRows : EditorRows where
  row_contents := [{ row_content := ['a'], render := render_row ['a'] }]
  filename := none

/-- A sample cursor state sitting at the origin of a 10 by 5 window. -/
def sampleCursor : CursorController where
  cursor_x := 0
  cursor_y := 0
  screen_columns := 10
  screen_rows := 5
  row_offset := 0
  column_offset := 0
  render_x := 0

/-- A sample editor state at the origin of `sampleRows`. -/
def sampleOutput : Output where
  cursor_controller := sampleCursor
  editor_rows := sampleRows
  search_index := { x_index := 0, y_index := 0, x_direction := none, y_direction := none }
  dirty := 0

/-- "No match found in any row along the current scan direction", spelled
per keystroke the way the scan of `find_callback` walks (src/main.rs:
392-439): Down visits the rows strictly below the current match row, Up
those strictly above; Right searches the current row's render strictly
after the match column (from `min(len, x_index + 1)`), Left the region
strictly before it (`render[..x_index]`).  Any other keystroke replaces
the query, which ends the claim's scope. -/
def scanRegionMisses (o : Output) (kw : List Char) : KeyCode → Prop
  | KeyCode.down => ∀ j, o.search_index.y_index < j → j < o.editor_rows.number_of_rows →
      strFind (o.editor_rows.get_editor_row j).render kw = none
  | KeyCode.up => ∀ j, j < o.search_index.y_index →
      strFind (o.editor_rows.get_editor_row j).render kw = none
  | KeyCode.right =>
      strFind ((o.editor_rows.get_editor_row o.search_index.y_index).render.drop
        (min (o.editor_rows.get_editor_row o.search_index.y_index).render.length
          (o.search_index.x_index + 1))) kw = none
  | KeyCode.left =>
      strRFind ((o.editor_rows.get_editor_row o.search_index.y_index).render.take
        o.search_index.x_index) kw = none
  | _ => True

/-- A buffer whose one line still contains the query of the sample
search session: the last good match sits at column 0 of `"za"`. -/
def searchRows : EditorRows where
  row_contents := [mkRow ['z', 'a']]
  filename := none

/-- A search session over `searchRows` whose current match is at row 0,
column 0 — the query occurs there, but nowhere strictly after it. -/
def searchOutput : Output where
  cursor_controller := sampleCursor
  editor_rows := searchRows
  search_index := { x_index := 0, y_index := 0, x_direction := none, y_direction := none }
  dirty := 0

/-- Whether a carriage return immediately precedes a newline anywhere in
the text — the line terminator that `str::lines` consumes beyond the bare
newline. -/
def hasCRLF : List Char → Bool
  | [] => false
  | [_] => false
  | c :: d :: t => (c == '\r' && d == '\n') || hasCRLF (d :: t)

/-- The buffer that loading `"a\nb\nc"` produces. -/
def abcRows : EditorRows where
  filename := some ['f']
  row_contents := [mkRow ['a'], mkRow ['b'], mkRow ['c']]

/-- The buffer that loading `"a\r\nb"` produces: the carriage return is
consumed by `str::lines`. -/
def crlfRows : EditorRows where
  filename := some ['f']
  row_contents := [mkRow ['a'], mkRow ['b']]

/-- Every step of the rendered-width accumulation strictly increases it:
a non-tab adds one cell, a tab at least one and at most `TAB_STOP`. -/
theorem renderWidthStep_gt (cur : Nat) (c : Char) : cur < renderWidthStep cur c := by
  unfold renderWidthStep TAB_STOP
  split <;> omega

/-- Folding the width accumulation over any characters never decreases
it. -/
theorem foldl_renderWidthStep_le (l : List Char) :
    ∀ cur : Nat, cur ≤ l.foldl renderWidthStep cur := by
  induction l with
  | nil => intro cur; simp
  | cons c t ih =>
    intro cur
    simp only [List.foldl_cons]
    exact le_trans (le_of_lt (renderWidthStep_gt cur c)) (ih _)

/-- The width step on a tab lands on the next multiple of `TAB_STOP`. -/
theorem renderWidthStep_tab (i : Nat) :
    renderWidthStep i '\t' = i + (TAB_STOP - i % TAB_STOP) := by
  unfold renderWidthStep TAB_STOP
  simp
  omega

/-- A tab rendered at column `i` emits `TAB_STOP - i % TAB_STOP` spaces
(the single unconditional space plus the `while` loop's padding). -/
theorem renderGo_tab (l : List Char) (i : Nat) :
    renderGo ('\t' :: l) i =
      List.replicate (TAB_STOP - i % TAB_STOP) ' ' ++
        renderGo l (i + (TAB_STOP - i % TAB_STOP)) := by
  show (if ('\t' : Char) = '\t' then _ else _) = _
  rw [if_pos rfl]
  have h1 : (TAB_STOP - (i + 1) % TAB_STOP) % TAB_STOP + 1 = TAB_STOP - i % TAB_STOP := by
    unfold TAB_STOP; omega
  have h2 : i + 1 + (TAB_STOP - (i + 1) % TAB_STOP) % TAB_STOP =
      i + (TAB_STOP - i % TAB_STOP) := by
    unfold TAB_STOP; omega
  rw [h2, ← h1, List.replicate_succ]

/-- Any character other than a tab is rendered as itself. -/
theorem renderGo_cons_ne (l : List Char) (i : Nat) (c : Char) (hc : c ≠ '\t') :
    renderGo (c :: l) i = c :: renderGo l (i + 1) := by
  show (if c = '\t' then _ else _) = _
  rw [if_neg hc]

/-- The `index` counter of `render_row` tracks the number of characters
emitted: starting from `i`, the final value is the width fold. -/
theorem renderGo_length (l : List Char) : ∀ i : Nat,
    i + (renderGo l i).length = l.foldl renderWidthStep i := by
  induction l with
  | nil => intro i; simp [renderGo]
  | cons c t ih =>
    intro i
    simp only [List.foldl_cons]
    by_cases hc : c = '\t'
    · subst hc
      rw [renderGo_tab, renderWidthStep_tab, ← ih (i + (TAB_STOP - i % TAB_STOP))]
      simp only [List.length_append, List.length_replicate]
      omega
    · rw [renderGo_cons_ne _ _ _ hc]
      have hs : renderWidthStep i c = i + 1 := by
        unfold renderWidthStep; rw [if_neg hc]
      rw [hs, ← ih (i + 1)]
      simp only [List.length_cons]
      omega

/-- Rendering splits over concatenation: the right half starts at the
column that the left half's render ends at. -/
theorem renderGo_append (a b : List Char) : ∀ i : Nat,
    renderGo (a ++ b) i = renderGo a i ++ renderGo b (i + (renderGo a i).length) := by
  induction a with
  | nil => intro i; simp [renderGo]
  | cons c t ih =>
    intro i
    by_cases hc : c = '\t'
    · subst hc
      rw [List.cons_append, renderGo_tab, renderGo_tab, ih]
      simp only [List.append_assoc, List.length_append, List.length_replicate]
      have h3 : i + (TAB_STOP - i % TAB_STOP) +
          (renderGo t (i + (TAB_STOP - i % TAB_STOP))).length =
          i + (TAB_STOP - i % TAB_STOP +
            (renderGo t (i + (TAB_STOP - i % TAB_STOP))).length) := by
        omega
      rw [h3]
    · rw [List.cons_append, renderGo_cons_ne _ _ _ hc, renderGo_cons_ne _ _ _ hc, ih]
      simp only [List.cons_append, List.length_cons]
      have h3 : i + 1 + (renderGo t (i + 1)).length =
          i + ((renderGo t (i + 1)).length + 1) := by omega
      rw [h3]

/-- No tab character survives rendering. -/
theorem renderGo_no_tab (l : List Char) : ∀ i : Nat, '\t' ∉ renderGo l i := by
  induction l with
  | nil => intro i; simp [renderGo]
  | cons c t ih =>
    intro i
    by_cases hc : c = '\t'
    · subst hc
      rw [renderGo_tab]
      simp only [List.mem_append, List.mem_replicate]
      rintro (⟨-, h⟩ | h)
      · exact absurd h (by decide)
      · exact ih _ h
    · rw [renderGo_cons_ne _ _ _ hc]
      simp only [List.mem_cons]
      rintro (h | h)
      · exact hc h.symm
      · exact ih _ h

/-- The non-tab characters of the content appear in order in the
render. -/
theorem renderGo_sublist (l : List Char) : ∀ i : Nat,
    (l.filter (fun c => c != '\t')).Sublist (renderGo l i) := by
  induction l with
  | nil => intro i; simp [renderGo]
  | cons c t ih =>
    intro i
    by_cases hc : c = '\t'
    · subst hc
      rw [renderGo_tab]
      simp only [List.filter_cons]
      norm_num
      exact (ih _).trans (List.sublist_append_right _ _)
    · rw [renderGo_cons_ne _ _ _ hc]
      simp only [List.filter_cons]
      have hb : (c != '\t') = true := by simp [hc]
      rw [hb]
      simp only [if_true]
      exact List.Sublist.cons₂ _ (ih _)

/-- The scan of `get_row_content_x` stops exactly at logical column `k`
when the target is the rendered width of the first `k` characters and `k`
lies strictly inside the line. -/
theorem getRowContentXGo_spec (l : List Char) : ∀ (k cur i : Nat), k < l.length →
    getRowContentXGo ((l.take k).foldl renderWidthStep cur) l cur i = i + k := by
  induction l with
  | nil => intro k cur i hk; simp at hk
  | cons c t ih =>
    intro k cur i hk
    cases k with
    | zero =>
      simp only [List.take_zero, List.foldl_nil, getRowContentXGo]
      rw [if_pos (renderWidthStep_gt cur c)]
      omega
    | succ j =>
      simp only [List.take_succ_cons, List.foldl_cons, getRowContentXGo]
      rw [if_neg]
      · rw [ih j (renderWidthStep cur c) (i + 1) (by simpa using hk)]
        omega
      · push_neg
        exact foldl_renderWidthStep_le _ _

/-- When the target rendered column is at least the full rendered width,
the scan of `get_row_content_x` falls off the loop and returns 0. -/
theorem getRowContentXGo_overflow (l : List Char) : ∀ (cur i rx : Nat),
    l.foldl renderWidthStep cur ≤ rx → getRowContentXGo rx l cur i = 0 := by
  induction l with
  | nil => intro cur i rx h; rfl
  | cons c t ih =>
    intro cur i rx h
    simp only [List.foldl_cons] at h
    simp only [getRowContentXGo]
    rw [if_neg]
    · exact ih _ _ _ h
    · push_neg
      exact le_trans (foldl_renderWidthStep_le _ _) h

/-- C1: on a non-empty buffer, `Output::delete_char` with the cursor at
row 0, column 0 is not the documented no-op: the `else` branch runs
`get_row(cursor_y - 1)` with `cursor_y == 0`, so the `usize` subtraction
underflows and the row lookup panics (`none`) instead of leaving the
state unchanged. -/
theorem delete_char_origin_underflow (o : Output)
    (hne : 1 ≤ o.editor_rows.number_of_rows)
    (hx : o.cursor_controller.cursor_x = 0)
    (hy : o.cursor_controller.cursor_y = 0) :
    o.delete_char = none := by
  unfold Output.delete_char
  rw [hx, hy]
  have h0 : ¬ (0 = o.editor_rows.number_of_rows) := by omega
  simp [h0]

/-- C1, evaluated at the failing input: one line `"a"`, cursor at the
origin. -/
theorem delete_char_origin_underflow_witness : sampleOutput.delete_char = none :=
  delete_char_origin_underflow sampleOutput (by decide) (by decide) (by decide)

/-- C2, the claim as stated is false: for the unreadable path the code
panics out of `expect("Unable to read file")` instead of returning the
recoverable `IoError` result the claim promises. -/
theorem from_file_unreadable_cex :
    EditorRows.from_file ['p'] none = LoadResult.panicked ∧
    LoadResult.panicked ≠ LoadResult.ioError := by
  exact ⟨rfl, by decide⟩

/-- C2 (amended): when the path cannot be read, `EditorRows::from_file`
aborts the process with a panic; no call of it ever produces the
recoverable `ioError` result. -/
theorem from_file_unreadable_panics :
    (∀ path : List Char, EditorRows.from_file path none = LoadResult.panicked) ∧
    (∀ (path : List Char) (r : Option (List Char)),
      EditorRows.from_file path r ≠ LoadResult.ioError) := by
  constructor
  · intro path
    rfl
  · intro path r
    cases r <;> simp [EditorRows.from_file]

/-- C5: whenever `CursorController::scroll` runs to completion on a
screen of at least 1 by 1 — it panics instead of completing when the
cursor sits on a real row with `cursor_x` beyond the line's length, a
state page moves can produce — the cursor row lies in the vertical window
and the recomputed rendered column lies in the horizontal window. -/
theorem scroll_keeps_cursor_in_window (cc cc2 : CursorController) (er : EditorRows)
    (hr : 1 ≤ cc.screen_rows) (hc : 1 ≤ cc.screen_columns)
    (h : cc.scroll er = some cc2) :
    cc2.row_offset ≤ cc2.cursor_y ∧
    cc2.cursor_y < cc2.row_offset + cc2.screen_rows ∧
    cc2.column_offset ≤ cc2.render_x ∧
    cc2.render_x < cc2.column_offset + cc2.screen_columns := by
  unfold CursorController.scroll at h
  dsimp only at h
  split at h
  · cases h
  · rename_i rx heq
    injection h with h2
    rw [← h2]
    refine ⟨?_, ?_, ?_, ?_⟩ <;> dsimp only <;> split_ifs <;> omega

/-- The `join("\n")` of `save` agrees with the library's intercalation of
single newlines, the specification's independent description of the
on-disk format (newline separators, no trailing newline). -/
theorem joinNl_eq_intercalate (ls : List (List Char)) :
    joinNl ls = List.intercalate ['\n'] ls := by
  induction ls with
  | nil => rfl
  | cons l ls ih =>
    cases ls with
    | nil => simp [joinNl, List.intercalate, List.intersperse]
    | cons m ms =>
      simp only [joinNl] at ih ⊢
      rw [ih]
      simp [List.intercalate, List.intersperse]

/-- C8: with no associated path, `save` fails with the no-file-name error
and the file system is untouched; with a path, it replaces the file with
exactly the rows intercalated with single newlines (no trailing newline)
and returns that content's byte count; the Ctrl-S keypress handler resets
`dirty` to 0 on success. -/
theorem save_spec :
    (∀ (er : EditorRows) (fs : List Char), er.filename = none →
      er.save fs = (SaveResult.noFileNameError, fs)) ∧
    (∀ (er : EditorRows) (fs name : List Char), er.filename = some name →
      er.save fs =
        (SaveResult.ok (List.intercalate ['\n'] (er.row_contents.map Row.row_content)).length,
          List.intercalate ['\n'] (er.row_contents.map Row.row_content))) ∧
    (∀ (o : Output) (fs name : List Char), o.editor_rows.filename = some name →
      ∃ fs2, processSaveKeypress o fs = some ({ o with dirty := 0 }, fs2)) := by
  refine ⟨?_, ?_, ?_⟩
  · intro er fs h
    unfold EditorRows.save
    rw [h]
  · intro er fs name h
    unfold EditorRows.save
    rw [h, joinNl_eq_intercalate]
  · intro o fs name h
    refine ⟨joinNl (o.editor_rows.row_contents.map Row.row_content), ?_⟩
    unfold processSaveKeypress EditorRows.save
    rw [h]

/-- C3, the claim as stated is false: with content `"abc"` (total
rendered width 3) and rendered column 5, `get_row_content_x` returns 0,
not the logical length 3. -/
theorem get_row_content_x_overflow_cex :
    Row.get_row_content_x (mkRow ['a', 'b', 'c']) 5 ≠ (['a', 'b', 'c'] : List Char).length ∧
    Row.get_row_content_x (mkRow ['a', 'b', 'c']) 5 = 0 ∧
    (render_row ['a', 'b', 'c']).length < 5 := by
  decide

/-- C3 (amended): whenever the requested rendered column is at least the
line's total rendered width, `Row::get_row_content_x` falls off its loop
and returns 0 — the start of the line, which coincides with the logical
length only for empty content. -/
theorem get_row_content_x_overflow_zero (content : List Char) (rx : Nat)
    (h : (render_row content).length ≤ rx) :
    Row.get_row_content_x (mkRow content) rx = 0 := by
  show getRowContentXGo rx content 0 0 = 0
  apply getRowContentXGo_overflow
  have h0 := renderGo_length content 0
  have hr : render_row content = renderGo content 0 := rfl
  rw [hr] at h
  omega

/-- C3's amended statement at a concrete input: content `"ab"`, rendered
column 7. -/
theorem get_row_content_x_overflow_zero_witness :
    Row.get_row_content_x (mkRow ['a', 'b']) 7 = 0 :=
  get_row_content_x_overflow_zero ['a', 'b'] 7 (by decide)

/-- C4, the claim as stated is false: at the valid logical column
`k = 1 = length` of content `"a"` (a position not inside any tab
expansion), the round trip returns 0, not `k`. -/
theorem rendered_logical_round_trip_cex :
    Row.get_row_content_x (mkRow ['a']) (get_render_x ['a'] 1) ≠ 1 ∧
    Row.get_row_content_x (mkRow ['a']) (get_render_x ['a'] 1) = 0 := by
  decide

/-- C4 (amended): the two coordinate translators round-trip at every
logical column strictly inside the line, `0 ≤ k < length`; at
`k = length` the scan of `get_row_content_x` falls off its loop and
returns 0 instead. -/
theorem rendered_logical_round_trip (content : List Char) (k : Nat)
    (h : k < content.length) :
    Row.get_row_content_x (mkRow content) (get_render_x content k) = k := by
  show getRowContentXGo ((content.take k).foldl renderWidthStep 0) content 0 0 = k
  have hs := getRowContentXGo_spec content k 0 0 h
  simpa using hs

/-- C4's amended statement at a concrete input: content `"a\tb"` and
`k = 2`, the column right after the tab. -/
theorem rendered_logical_round_trip_witness :
    Row.get_row_content_x (mkRow ['a', '\t', 'b']) (get_render_x ['a', '\t', 'b'] 2) = 2 :=
  rendered_logical_round_trip ['a', '\t', 'b'] 2 (by decide)

/-- C7: in `render_row`, a tab reached at rendered column `L` (the length
of the render of everything before it) expands to between 1 and
`TAB_STOP` spaces ending exactly at the next multiple of `TAB_STOP`,
every other character maps to itself, rendering `"\t"` gives 8 spaces and
rendering `"a\t"` gives `'a'` followed by 7 spaces. -/
theorem render_row_tab_stops :
    (∀ pre rest : List Char,
      render_row (pre ++ '\t' :: rest) =
        render_row pre ++
          List.replicate (TAB_STOP - (render_row pre).length % TAB_STOP) ' ' ++
          renderGo rest
            ((render_row pre).length + (TAB_STOP - (render_row pre).length % TAB_STOP)) ∧
      1 ≤ TAB_STOP - (render_row pre).length % TAB_STOP ∧
      TAB_STOP - (render_row pre).length % TAB_STOP ≤ TAB_STOP ∧
      ((render_row pre).length + (TAB_STOP - (render_row pre).length % TAB_STOP)) % TAB_STOP
        = 0) ∧
    (∀ (pre rest : List Char) (c : Char), c ≠ '\t' →
      render_row (pre ++ c :: rest) =
        render_row pre ++ c :: renderGo rest ((render_row pre).length + 1)) ∧
    render_row ['\t'] = List.replicate 8 ' ' ∧
    render_row ['a', '\t'] = 'a' :: List.replicate 7 ' ' := by
  refine ⟨?_, ?_, by decide, by decide⟩
  · intro pre rest
    refine ⟨?_, ?_, ?_, ?_⟩
    · simp only [render_row]
      rw [renderGo_append, renderGo_tab]
      simp only [Nat.zero_add, List.append_assoc]
    · simp only [TAB_STOP]; omega
    · simp only [TAB_STOP]; omega
    · simp only [TAB_STOP]; omega
  · intro pre rest c hc
    simp only [render_row]
    rw [renderGo_append, renderGo_cons_ne _ _ _ hc]
    simp only [Nat.zero_add]

/-- C5 at a concrete state: the sample cursor against the sample buffer,
where `scroll` completes and returns the state unchanged. -/
theorem scroll_keeps_cursor_in_window_witness :
    sampleCursor.row_offset ≤ sampleCursor.cursor_y ∧
    sampleCursor.cursor_y < sampleCursor.row_offset + sampleCursor.screen_rows ∧
    sampleCursor.column_offset ≤ sampleCursor.render_x ∧
    sampleCursor.render_x < sampleCursor.column_offset + sampleCursor.screen_columns :=
  scroll_keeps_cursor_in_window sampleCursor sampleCursor sampleRows
    (by decide) (by decide) (by decide)

/-- `Row::insert_char` re-derives the cached render before returning. -/
theorem Row_insert_char_wellRendered (r r2 : Row) (i : Nat) (ch : Char)
    (h : r.insert_char i ch = some r2) : rowWellRendered r2 := by
  unfold Row.insert_char at h
  split at h
  · injection h with h2
    rw [← h2]
    rfl
  · cases h

/-- `Row::delete_char` re-derives the cached render before returning. -/
theorem Row_delete_char_wellRendered (r r2 : Row) (i : Nat)
    (h : r.delete_char i = some r2) : rowWellRendered r2 := by
  unfold Row.delete_char at h
  split at h
  · injection h with h2
    rw [← h2]
    rfl
  · cases h

/-- Replacing one row of a well-rendered buffer with a well-rendered row
keeps every row well rendered. -/
theorem wellRendered_set (rows : List Row) (i : Nat) (row : Row)
    (hwr : ∀ r ∈ rows, rowWellRendered r) (hrow : rowWellRendered row) :
    ∀ r ∈ rows.set i row, rowWellRendered r := by
  intro r hr
  rcases List.mem_or_eq_of_mem_set hr with h | h
  · exact hwr r h
  · rw [h]; exact hrow

/-- Inserting a well-rendered row into a well-rendered list keeps every
row well rendered. -/
theorem wellRendered_insert_list (rows : List Row) (i : Nat) (row : Row)
    (hwr : ∀ r ∈ rows, rowWellRendered r) (hrow : rowWellRendered row) :
    ∀ r ∈ rows.take i ++ row :: rows.drop i, rowWellRendered r := by
  intro r hr
  rcases List.mem_append.mp hr with h | h
  · exact hwr r (List.mem_of_mem_take h)
  · rcases List.mem_cons.mp h with h | h
    · rw [h]; exact hrow
    · exact hwr r (List.mem_of_mem_drop h)

/-- `EditorRows::insert_row` renders the new row before inserting it, so
a well-rendered buffer stays well rendered. -/
theorem insert_row_wellRendered (er er2 : EditorRows) (i : Nat) (contents : List Char)
    (hwr : ∀ r ∈ er.row_contents, rowWellRendered r)
    (h : er.insert_row i contents = some er2) :
    ∀ r ∈ er2.row_contents, rowWellRendered r := by
  unfold EditorRows.insert_row at h
  split at h
  · injection h with h2
    rw [← h2]
    exact wellRendered_insert_list _ _ _ hwr rfl
  · cases h

/-- `EditorRows::join_adjacent_rows` re-renders the joined row, so a
well-rendered buffer stays well rendered. -/
theorem join_adjacent_rows_wellRendered (er er2 : EditorRows) (i : Nat)
    (hwr : ∀ r ∈ er.row_contents, rowWellRendered r)
    (h : er.join_adjacent_rows i = some er2) :
    ∀ r ∈ er2.row_contents, rowWellRendered r := by
  unfold EditorRows.join_adjacent_rows at h
  split at h
  · injection h with h2
    rw [← h2]
    apply wellRendered_set
    · intro r hr
      rcases List.mem_append.mp hr with h3 | h3
      · exact hwr r (List.mem_of_mem_take h3)
      · exact hwr r (List.mem_of_mem_drop h3)
    · rfl
  · cases h

/-- `Output::insert_char` (a fresh appended row and the edited row are
both re-rendered) keeps the buffer well rendered. -/
theorem output_insert_char_wellRendered (o o2 : Output) (ch : Char)
    (hwr : ∀ r ∈ o.editor_rows.row_contents, rowWellRendered r)
    (h : o.insert_char ch = some o2) :
    ∀ r ∈ o2.editor_rows.row_contents, rowWellRendered r := by
  unfold Output.insert_char at h
  dsimp only at h
  split at h
  · cases h
  · rename_i er1 d1 heq
    split at h
    · split at h
      · rename_i row hrow
        injection h with h2
        rw [← h2]
        have her1 : ∀ r ∈ er1.row_contents, rowWellRendered r := by
          split at heq
          · split at heq
            · rename_i er hins
              injection heq with h3
              injection h3 with h4 h5
              rw [← h4]
              exact insert_row_wellRendered _ _ _ _ hwr hins
            · cases heq
          · injection heq with h3
            injection h3 with h4 h5
            rw [← h4]
            exact hwr
        exact wellRendered_set _ _ _ her1
          (Row_insert_char_wellRendered _ _ _ _ hrow)
      · cases h
    · cases h

/-- `Output::insert_newline` re-renders the truncated half and renders
the inserted half, keeping the buffer well rendered. -/
theorem output_insert_newline_wellRendered (o o2 : Output)
    (hwr : ∀ r ∈ o.editor_rows.row_contents, rowWellRendered r)
    (h : o.insert_newline = some o2) :
    ∀ r ∈ o2.editor_rows.row_contents, rowWellRendered r := by
  unfold Output.insert_newline at h
  dsimp only at h
  split at h
  · cases h
  · rename_i er1 heq
    injection h with h2
    rw [← h2]
    show ∀ r ∈ er1.row_contents, rowWellRendered r
    split at heq
    · exact insert_row_wellRendered _ _ _ _ hwr heq
    · split at heq
      · split at heq
        · apply insert_row_wellRendered _ _ _ _ _ heq
          exact wellRendered_set _ _ _ hwr rfl
        · cases heq
      · cases heq

/-- `Output::delete_char` re-renders the edited or joined row, keeping
the buffer well rendered. -/
theorem output_delete_char_wellRendered (o o2 : Output)
    (hwr : ∀ r ∈ o.editor_rows.row_contents, rowWellRendered r)
    (h : o.delete_char = some o2) :
    ∀ r ∈ o2.editor_rows.row_contents, rowWellRendered r := by
  unfold Output.delete_char at h
  split at h
  · injection h with h2
    rw [← h2]
    exact hwr
  · split at h
    · split at h
      · rename_i row hrow
        injection h with h2
        rw [← h2]
        exact wellRendered_set _ _ _ hwr (Row_delete_char_wellRendered _ _ _ hrow)
      · cases h
    · split at h
      · cases h
      · split at h
        · rename_i er hjoin
          injection h with h2
          rw [← h2]
          exact join_adjacent_rows_wellRendered _ _ _ hwr hjoin
        · cases h

/-- C10: the cached render contains no tab, contains the non-tab
characters of the content in order, ends each tab's expansion on a
multiple of `TAB_STOP`, and every mutating operation — `Row::insert_char`,
`Row::delete_char`, `EditorRows::insert_row`,
`EditorRows::join_adjacent_rows`, `Output::insert_char`,
`Output::insert_newline` (the split) and `Output::delete_char` — returns
a buffer whose every cached render is the re-derived render of its
content. -/
theorem render_cache_invariant :
    (∀ content : List Char, '\t' ∉ render_row content) ∧
    (∀ content : List Char,
      (content.filter (fun c => c != '\t')).Sublist (render_row content)) ∧
    (∀ pre rest : List Char,
      render_row (pre ++ '\t' :: rest) =
        render_row (pre ++ ['\t']) ++ renderGo rest (render_row (pre ++ ['\t'])).length ∧
      (render_row (pre ++ ['\t'])).length % TAB_STOP = 0) ∧
    (∀ (r r2 : Row) (i : Nat) (ch : Char),
      r.insert_char i ch = some r2 → rowWellRendered r2) ∧
    (∀ (r r2 : Row) (i : Nat), r.delete_char i = some r2 → rowWellRendered r2) ∧
    (∀ (er er2 : EditorRows) (i : Nat) (contents : List Char),
      (∀ r ∈ er.row_contents, rowWellRendered r) → er.insert_row i contents = some er2 →
        ∀ r ∈ er2.row_contents, rowWellRendered r) ∧
    (∀ (er er2 : EditorRows) (i : Nat),
      (∀ r ∈ er.row_contents, rowWellRendered r) → er.join_adjacent_rows i = some er2 →
        ∀ r ∈ er2.row_contents, rowWellRendered r) ∧
    (∀ (o o2 : Output) (ch : Char),
      (∀ r ∈ o.editor_rows.row_contents, rowWellRendered r) → o.insert_char ch = some o2 →
        ∀ r ∈ o2.editor_rows.row_contents, rowWellRendered r) ∧
    (∀ o o2 : Output,
      (∀ r ∈ o.editor_rows.row_contents, rowWellRendered r) → o.insert_newline = some o2 →
        ∀ r ∈ o2.editor_rows.row_contents, rowWellRendered r) ∧
    (∀ o o2 : Output,
      (∀ r ∈ o.editor_rows.row_contents, rowWellRendered r) → o.delete_char = some o2 →
        ∀ r ∈ o2.editor_rows.row_contents, rowWellRendered r) := by
  refine ⟨fun content => renderGo_no_tab content 0,
    fun content => renderGo_sublist content 0,
    ?_,
    fun r r2 i ch h => Row_insert_char_wellRendered r r2 i ch h,
    fun r r2 i h => Row_delete_char_wellRendered r r2 i h,
    fun er er2 i contents hwr h => insert_row_wellRendered er er2 i contents hwr h,
    fun er er2 i hwr h => join_adjacent_rows_wellRendered er er2 i hwr h,
    fun o o2 ch hwr h => output_insert_char_wellRendered o o2 ch hwr h,
    fun o o2 hwr h => output_insert_newline_wellRendered o o2 hwr h,
    fun o o2 hwr h => output_delete_char_wellRendered o o2 hwr h⟩
  intro pre rest
  constructor
  · have h1 : pre ++ '\t' :: rest = (pre ++ ['\t']) ++ rest := by simp
    rw [h1]
    show renderGo ((pre ++ ['\t']) ++ rest) 0 = _
    rw [renderGo_append]
    simp only [render_row, Nat.zero_add]
  · have h0 := renderGo_length (pre ++ ['\t']) 0
    rw [List.foldl_append] at h0
    simp only [List.foldl_cons, List.foldl_nil] at h0
    rw [renderWidthStep_tab] at h0
    show (renderGo (pre ++ ['\t']) 0).length % TAB_STOP = 0
    simp only [TAB_STOP] at h0 ⊢
    omega

/-- A failed `find` means no position of the haystack starts the
pattern. -/
theorem findFromAux_eq_none (pat : List Char) : ∀ (hay : List Char) (i : Nat),
    findFromAux pat hay i = none → ∀ j, pat.isPrefixOf (hay.drop j) = false := by
  intro hay
  induction hay with
  | nil =>
    intro i h j
    simp only [findFromAux] at h
    split at h
    · cases h
    · rename_i hp
      rw [List.drop_nil, Bool.eq_false_iff]
      exact hp
  | cons c t ih =>
    intro i h j
    simp only [findFromAux] at h
    split at h
    · cases h
    · rename_i hp
      cases j with
      | zero =>
        rw [List.drop_zero, Bool.eq_false_iff]
        exact hp
      | succ j2 => exact ih (i + 1) h j2

/-- When no position of the haystack starts the pattern, `find`
fails. -/
theorem findFromAux_of_none (pat : List Char) : ∀ (hay : List Char) (i : Nat),
    (∀ j, pat.isPrefixOf (hay.drop j) = false) → findFromAux pat hay i = none := by
  intro hay
  induction hay with
  | nil =>
    intro i h
    have h0 := h 0
    rw [List.drop_zero] at h0
    simp only [findFromAux]
    rw [if_neg]
    simp [h0]
  | cons c t ih =>
    intro i h
    have h0 := h 0
    rw [List.drop_zero] at h0
    simp only [findFromAux]
    rw [if_neg]
    · exact ih (i + 1) (fun j => h (j + 1))
    · simp [h0]

/-- When no position of the haystack starts the pattern, `rfind` keeps
whatever best candidate it was given. -/
theorem rfindAux_of_none (pat : List Char) : ∀ (hay : List Char) (i : Nat) (best : Option Nat),
    (∀ j, pat.isPrefixOf (hay.drop j) = false) → rfindAux pat hay i best = best := by
  intro hay
  induction hay with
  | nil =>
    intro i best h
    have h0 := h 0
    rw [List.drop_zero] at h0
    simp only [rfindAux]
    rw [if_neg]
    simp [h0]
  | cons c t ih =>
    intro i best h
    have h0 := h 0
    rw [List.drop_zero] at h0
    simp only [rfindAux]
    rw [if_neg]
    · exact ih (i + 1) best (fun j => h (j + 1))
    · simp [h0]

/-- A pattern that is no prefix of a list is no prefix of any `take` of
it. -/
theorem isPrefixOf_take_false (pat l : List Char) (m : Nat)
    (h : pat.isPrefixOf l = false) : pat.isPrefixOf (l.take m) = false := by
  cases hb : pat.isPrefixOf (l.take m) with
  | false => rfl
  | true =>
    exfalso
    have h1 : pat <+: l.take m := List.isPrefixOf_iff_prefix.mp hb
    have h2 : pat <+: l := h1.trans (List.take_prefix m l)
    rw [List.isPrefixOf_iff_prefix.mpr h2] at h
    cases h

/-- A pattern absent from a string is absent from every tail slice
(the forward in-line search region). -/
theorem strFind_drop_none (hay pat : List Char) (s : Nat)
    (h : strFind hay pat = none) : strFind (hay.drop s) pat = none := by
  apply findFromAux_of_none
  intro j
  rw [List.drop_drop]
  exact findFromAux_eq_none pat hay 0 h (s + j)

/-- A pattern absent from a string is absent from every initial slice
(the backward in-line search region). -/
theorem strRFind_take_none (hay pat : List Char) (x : Nat)
    (h : strFind hay pat = none) : strRFind (hay.take x) pat = none := by
  apply rfindAux_of_none
  intro j
  rw [List.drop_take]
  exact isPrefixOf_take_false _ _ _ (findFromAux_eq_none pat hay 0 h j)

/-- A guarded `get_editor_row` access returns one of the buffer's
rows. -/
theorem mem_get_editor_row (er : EditorRows) (i : Nat) (h : i < er.number_of_rows) :
    er.get_editor_row i ∈ er.row_contents := by
  unfold EditorRows.get_editor_row
  rw [List.getD_eq_getElem?_getD, List.getElem?_eq_getElem h]
  exact List.getElem_mem h

/-- The scan of `find_callback` leaves the state untouched when exactly
one direction is armed and the region that direction scans misses the
keyword: every iteration either breaks out or moves on without writing
anything.  The keyword may still occur at or behind the current match —
only the visited region matters. -/
theorem findLoop_no_match (kw : List Char) (o : Output)
    (hcase :
      (o.search_index.y_direction = some SearchDirection.forward ∧
        o.search_index.x_direction = none ∧
        ∀ j, o.search_index.y_index < j → j < o.editor_rows.number_of_rows →
          strFind (o.editor_rows.get_editor_row j).render kw = none) ∨
      (o.search_index.y_direction = some SearchDirection.backward ∧
        o.search_index.x_direction = none ∧
        ∀ j, j < o.search_index.y_index →
          strFind (o.editor_rows.get_editor_row j).render kw = none) ∨
      (o.search_index.y_direction = none ∧
        o.search_index.x_direction = some SearchDirection.forward ∧
        strFind ((o.editor_rows.get_editor_row o.search_index.y_index).render.drop
          (min (o.editor_rows.get_editor_row o.search_index.y_index).render.length
            (o.search_index.x_index + 1))) kw = none) ∨
      (o.search_index.y_direction = none ∧
        o.search_index.x_direction = some SearchDirection.backward ∧
        o.search_index.x_index ≤
          (o.editor_rows.get_editor_row o.search_index.y_index).render.length ∧
        strRFind ((o.editor_rows.get_editor_row o.search_index.y_index).render.take
          o.search_index.x_index) kw = none)) :
    ∀ rem i, i + rem = o.editor_rows.number_of_rows →
      findLoop kw o.editor_rows.number_of_rows o i rem = some o := by
  intro rem
  induction rem with
  | zero => intro i hi; rfl
  | succ rem ih =>
    intro i hi
    have hn1 : 1 ≤ o.editor_rows.number_of_rows := by omega
    rcases hcase with ⟨hyv, hx, h3⟩ | ⟨hyv, hx, h3⟩ | ⟨hy, hxv, h3⟩ | ⟨hy, hxv, h3a, h3b⟩
    · -- the scan walks the rows strictly below the current match row
      simp only [findLoop, hyv, hx]
      split
      · rfl
      · rename_i hguard
        rw [h3 (o.search_index.y_index + i + 1) (by omega) (by omega)]
        exact ih (i + 1) (by omega)
    · -- the scan walks the rows strictly above the current match row
      simp only [findLoop, hyv, hx]
      split
      · rfl
      · rename_i st1 row_index hres
        split at hres
        · cases hres
        · rename_i hres0
          injection hres with hres1
          injection hres1 with hst hrowi
          subst hst
          subst hrowi
          split
          · rfl
          · rename_i hguard
            rw [hx, h3 (o.search_index.y_index - i - 1) (by omega)]
            exact ih (i + 1) (by omega)
    · -- the scan searches the current row strictly after the match column
      simp only [findLoop, hy, hxv]
      rw [if_neg (by simp : ¬ (some SearchDirection.forward = none))]
      split
      · rfl
      · rename_i hguard
        rw [hxv, h3]
        rfl
    · -- the scan searches the current row strictly before the match column
      simp only [findLoop, hy, hxv]
      rw [if_neg (by simp : ¬ (some SearchDirection.backward = none))]
      split
      · rfl
      · rename_i hguard
        rw [hxv]
        dsimp only
        rw [h3b]

/-- C6: a search arrow keystroke (the keystrokes that keep the query and
re-arm a scan direction) that finds no match for the query along the
current scan direction — the rows strictly beyond the current match row,
or the in-line region strictly beyond the current match column — leaves
the cursor (position and offsets) and the `x_index`/`y_index` match
coordinates unchanged, sticky on the last good match, even when the query
still occurs at or behind it.  For the backward in-line scan the session
invariant that `x_index` lies within the current row's render is assumed;
outside it the Rust slice `render[..x_index]` would panic. -/
theorem find_callback_no_match_sticky (o : Output) (kw : List Char) (key : KeyCode)
    (hkey : key = KeyCode.up ∨ key = KeyCode.down ∨ key = KeyCode.left ∨ key = KeyCode.right)
    (hnm : scanRegionMisses o kw key)
    (hxb : key = KeyCode.left →
      o.search_index.x_index ≤
        (o.editor_rows.get_editor_row o.search_index.y_index).render.length) :
    ∃ o2, find_callback o kw key = some o2 ∧
      o2.cursor_controller = o.cursor_controller ∧
      o2.search_index.x_index = o.search_index.x_index ∧
      o2.search_index.y_index = o.search_index.y_index := by
  rcases hkey with hk | hk | hk | hk <;> subst hk
  · refine ⟨{ o with search_index := { o.search_index with
        x_direction := none, y_direction := some SearchDirection.backward } },
      ?_, rfl, rfl, rfl⟩
    exact findLoop_no_match kw
      { o with search_index := { o.search_index with
          x_direction := none, y_direction := some SearchDirection.backward } }
      (Or.inr (Or.inl ⟨rfl, rfl, hnm⟩)) _ 0 (Nat.zero_add _)
  · refine ⟨{ o with search_index := { o.search_index with
        x_direction := none, y_direction := some SearchDirection.forward } },
      ?_, rfl, rfl, rfl⟩
    exact findLoop_no_match kw
      { o with search_index := { o.search_index with
          x_direction := none, y_direction := some SearchDirection.forward } }
      (Or.inl ⟨rfl, rfl, hnm⟩) _ 0 (Nat.zero_add _)
  · refine ⟨{ o with search_index := { o.search_index with
        x_direction := some SearchDirection.backward, y_direction := none } },
      ?_, rfl, rfl, rfl⟩
    exact findLoop_no_match kw
      { o with search_index := { o.search_index with
          x_direction := some SearchDirection.backward, y_direction := none } }
      (Or.inr (Or.inr (Or.inr ⟨rfl, rfl, hxb rfl, hnm⟩))) _ 0 (Nat.zero_add _)
  · refine ⟨{ o with search_index := { o.search_index with
        x_direction := some SearchDirection.forward, y_direction := none } },
      ?_, rfl, rfl, rfl⟩
    exact findLoop_no_match kw
      { o with search_index := { o.search_index with
          x_direction := some SearchDirection.forward, y_direction := none } }
      (Or.inr (Or.inr (Or.inl ⟨rfl, rfl, hnm⟩))) _ 0 (Nat.zero_add _)

/-- C6 at a concrete state in which the last good match is still present:
the query `"z"` occurs at row 0, column 0 of `"za"`, a Right keystroke
finds nothing strictly after that column, and the state is unchanged. -/
theorem find_callback_no_match_sticky_witness :
    ∃ o2, find_callback searchOutput ['z'] KeyCode.right = some o2 ∧
      o2.cursor_controller = searchOutput.cursor_controller ∧
      o2.search_index.x_index = searchOutput.search_index.x_index ∧
      o2.search_index.y_index = searchOutput.search_index.y_index :=
  find_callback_no_match_sticky searchOutput ['z'] KeyCode.right
    (Or.inr (Or.inr (Or.inr rfl))) (by unfold scanRegionMisses; decide) (by decide)

/-- The last element of a cons is the last element of a non-empty
tail. -/
theorem getLast?_cons_ne (c : Char) (s : List Char) (hs : s ≠ []) :
    (c :: s).getLast? = s.getLast? := by
  cases s with
  | nil => exact absurd rfl hs
  | cons a t => exact List.getLast?_cons_cons

/-- Dropping the last element of a cons keeps the head when the tail is
non-empty. -/
theorem dropLast_cons_ne (c : Char) (s : List Char) (hs : s ≠ []) :
    (c :: s).dropLast = c :: s.dropLast := by
  cases s with
  | nil => exact absurd rfl hs
  | cons a t => simp [List.dropLast_cons₂]

/-- A list is its front followed by its last element. -/
theorem eq_dropLast_append_getLast? (l : List Char) (x : Char)
    (h : l.getLast? = some x) : l = l.dropLast ++ [x] := by
  induction l with
  | nil => cases h
  | cons a t ih =>
    cases t with
    | nil =>
      simp only [List.getLast?_singleton, Option.some.injEq] at h
      rw [h]
      rfl
    | cons b t2 =>
      rw [List.getLast?_cons_cons] at h
      rw [dropLast_cons_ne a (b :: t2) (by simp), List.cons_append]
      rw [← ih h]

/-- A CRLF-free text has a CRLF-free tail. -/
theorem hasCRLF_tail (c : Char) (l : List Char) (h : hasCRLF (c :: l) = false) :
    hasCRLF l = false := by
  cases l with
  | nil => rfl
  | cons d t =>
    simp only [hasCRLF, Bool.or_eq_false_iff] at h
    exact h.2

/-- A CRLF-free text has CRLF-free initial segments. -/
theorem hasCRLF_append_left (a b : List Char) (h : hasCRLF (a ++ b) = false) :
    hasCRLF a = false := by
  induction a with
  | nil => rfl
  | cons x t ih =>
    cases t with
    | nil => rfl
    | cons y t2 =>
      simp only [List.cons_append, hasCRLF, Bool.or_eq_false_iff] at h ⊢
      refine ⟨h.1, ?_⟩
      have := ih (by simpa using h.2)
      simpa using this

/-- A text containing a literal carriage return before a newline has a
CRLF. -/
theorem hasCRLF_crlf (a b : List Char) : hasCRLF (a ++ '\r' :: '\n' :: b) = true := by
  induction a with
  | nil => simp [hasCRLF]
  | cons x t ih =>
    cases t with
    | nil => simp [hasCRLF]
    | cons y t2 =>
      simp only [List.cons_append, hasCRLF, Bool.or_eq_true] at ih ⊢
      right
      simpa using ih

/-- A non-empty text splits into at least one chunk. -/
theorem splitInclusiveNl_ne_nil (l : List Char) (h : l ≠ []) :
    splitInclusiveNl l ≠ [] := by
  cases l with
  | nil => exact absurd rfl h
  | cons c t =>
    simp only [splitInclusiveNl]
    split
    · simp
    · split <;> simp

/-- The first chunk of the inclusive split is an initial segment of the
text. -/
theorem splitInclusiveNl_first_prefix : ∀ (l s : List Char) (ss : List (List Char)),
    splitInclusiveNl l = s :: ss → ∃ t2, l = s ++ t2 := by
  intro l
  induction l with
  | nil => intro s ss h; cases h
  | cons c t ih =>
    intro s ss h
    simp only [splitInclusiveNl] at h
    split at h
    · rename_i hc
      injection h with h1 h2
      subst hc
      exact ⟨t, by rw [← h1]; rfl⟩
    · rename_i hc
      split at h
      · rename_i hnil
        injection h with h1 h2
        have ht : t = [] := by
          by_contra hne
          exact splitInclusiveNl_ne_nil t hne hnil
        subst ht
        exact ⟨[], by rw [← h1]; simp⟩
      · rename_i s2 ss2 heq
        injection h with h1 h2
        obtain ⟨t2, ht2⟩ := ih s2 ss2 heq
        exact ⟨t2, by rw [← h1, List.cons_append, ← ht2]⟩

/-- The first chunk of the inclusive split is never empty. -/
theorem splitInclusiveNl_chunk_ne_nil : ∀ (l s : List Char) (ss : List (List Char)),
    splitInclusiveNl l = s :: ss → s ≠ [] := by
  intro l
  induction l with
  | nil => intro s ss h; cases h
  | cons c t ih =>
    intro s ss h
    simp only [splitInclusiveNl] at h
    split at h
    · injection h with h1 h2
      rw [← h1]
      simp
    · split at h
      · injection h with h1 h2
        rw [← h1]
        simp
      · rename_i s2 ss2 heq
        injection h with h1 h2
        rw [← h1]
        simp

/-- Joining with newlines commutes with prepending a character to the
first line. -/
theorem joinNl_cons_head (c : Char) (a : List Char) (t : List (List Char)) :
    joinNl ((c :: a) :: t) = c :: joinNl (a :: t) := by
  cases t with
  | nil => rfl
  | cons x xs => simp [joinNl]

/-- On a CRLF-free chunk, the per-line strip of `str::lines` commutes
with prepending a character. -/
theorem linesMap_cons (c : Char) (s : List Char) (hs : s ≠ [])
    (hcr : hasCRLF (c :: s) = false) : linesMap (c :: s) = c :: linesMap s := by
  unfold linesMap
  dsimp only
  rw [getLast?_cons_ne c s hs]
  by_cases hn : s.getLast? = some '\n'
  · rw [if_pos hn, if_pos hn, dropLast_cons_ne c s hs]
    by_cases hd : s.dropLast = []
    · rw [hd]
      have hc : c ≠ '\r' := by
        intro hceq
        subst hceq
        have hsn : s = ['\n'] := by
          have := eq_dropLast_append_getLast? s '\n' hn
          rw [hd] at this
          simpa using this
        rw [hsn] at hcr
        simp [hasCRLF] at hcr
      rw [if_neg (by simpa using hc), if_neg (by simp)]
    · rw [getLast?_cons_ne c s.dropLast hd]
      by_cases hr : s.dropLast.getLast? = some '\r'
      · exfalso
        have h1 := eq_dropLast_append_getLast? s '\n' hn
        have h2 := eq_dropLast_append_getLast? s.dropLast '\r' hr
        rw [h2] at h1
        have : c :: s = (c :: s.dropLast.dropLast) ++ '\r' :: '\n' :: [] := by
          rw [h1]
          simp
        rw [this, hasCRLF_crlf] at hcr
        cases hcr
      · rw [if_neg hr, if_neg hr]
  · rw [if_neg hn, if_neg hn]

/-- The heart of the load/save round trip: rejoining the lines of a text
that has no trailing newline and no CRLF reproduces it exactly. -/
theorem joinNl_rustLines (content : List Char) :
    content.getLast? ≠ some '\n' → hasCRLF content = false →
    joinNl (rustLines content) = content := by
  induction content with
  | nil => intro h1 h2; rfl
  | cons c rest ih =>
    intro h1 h2
    by_cases hc : c = '\n'
    · subst hc
      have hrest : rest ≠ [] := by
        intro h
        subst h
        exact h1 rfl
      have hsplit : splitInclusiveNl ('\n' :: rest) = ['\n'] :: splitInclusiveNl rest := by
        simp [splitInclusiveNl]
      obtain ⟨s, ss, hss⟩ : ∃ s ss, splitInclusiveNl rest = s :: ss := by
        cases hx : splitInclusiveNl rest with
        | nil => exact absurd hx (splitInclusiveNl_ne_nil rest hrest)
        | cons s ss => exact ⟨s, ss, rfl⟩
      have h3 : joinNl (rustLines rest) = rest := by
        apply ih
        · rw [← getLast?_cons_ne '\n' rest hrest]
          exact h1
        · exact hasCRLF_tail _ _ h2
      unfold rustLines at h3 ⊢
      rw [hsplit, hss] at *
      rw [hss] at h3
      simp only [List.map_cons] at h3 ⊢
      have hlm : linesMap ['\n'] = [] := rfl
      rw [hlm]
      show [] ++ '\n' :: joinNl (linesMap s :: List.map linesMap ss) = '\n' :: rest
      rw [List.nil_append, h3]
    · cases hx : splitInclusiveNl rest with
      | nil =>
        have hrest : rest = [] := by
          by_contra h
          exact splitInclusiveNl_ne_nil rest h hx
        subst hrest
        unfold rustLines
        have : splitInclusiveNl [c] = [[c]] := by
          simp [splitInclusiveNl, hc]
        rw [this]
        simp only [List.map_cons, List.map_nil, joinNl]
        unfold linesMap
        rw [if_neg (by simpa using hc)]
      | cons s ss =>
        have hrest : rest ≠ [] := by
          intro h
          subst h
          simp [splitInclusiveNl] at hx
        have hsplit : splitInclusiveNl (c :: rest) = (c :: s) :: ss := by
          simp only [splitInclusiveNl]
          rw [if_neg hc, hx]
        obtain ⟨t2, ht2⟩ := splitInclusiveNl_first_prefix rest s ss hx
        have hs_ne : s ≠ [] := splitInclusiveNl_chunk_ne_nil rest s ss hx
        have hcrcs : hasCRLF (c :: s) = false := by
          apply hasCRLF_append_left (c :: s) t2
          rw [List.cons_append, ← ht2]
          exact h2
        have h3 : joinNl (rustLines rest) = rest := by
          apply ih
          · rw [← getLast?_cons_ne c rest hrest]
            exact h1
          · exact hasCRLF_tail _ _ h2
        unfold rustLines at h3 ⊢
        rw [hsplit]
        rw [hx] at h3
        simp only [List.map_cons] at h3 ⊢
        rw [linesMap_cons c s hs_ne hcrcs, joinNl_cons_head, h3]

/-- C9, the claim as stated is false: `"a\r\nb"` has no trailing newline,
yet loading it consumes the carriage return (`str::lines` treats `\r\n`
as one terminator) and saving writes back `"a\nb"`, which is not
byte-identical. -/
theorem load_save_crlf_cex :
    (['a', '\r', '\n', 'b'] : List Char).getLast? ≠ some '\n' ∧
    EditorRows.from_file ['f'] (some ['a', '\r', '\n', 'b']) = LoadResult.ok crlfRows ∧
    (crlfRows.save ['a', '\r', '\n', 'b']).2 = ['a', '\n', 'b'] ∧
    (['a', '\n', 'b'] : List Char) ≠ ['a', '\r', '\n', 'b'] := by
  decide

/-- C9 (amended): loading then saving is byte-identical for every content
with no trailing newline and no carriage return immediately before a
newline; the example `"a\nb\nc"` loads to exactly three lines and saves
back byte-identically; and a trailing newline produces no phantom empty
last line (`"a\nb\n"` loads to exactly `["a", "b"]`). -/
theorem load_save_round_trip :
    (∀ content path fs : List Char,
      content.getLast? ≠ some '\n' → hasCRLF content = false →
      ∃ er, EditorRows.from_file path (some content) = LoadResult.ok er ∧
        (er.save fs).2 = content) ∧
    EditorRows.from_file ['f'] (some ['a', '\n', 'b', '\n', 'c']) = LoadResult.ok abcRows ∧
    (abcRows.save []).2 = ['a', '\n', 'b', '\n', 'c'] ∧
    rustLines ['a', '\n', 'b', '\n'] = [['a'], ['b']] := by
  refine ⟨?_, by decide, by decide, by decide⟩
  intro content path fs h1 h2
  refine ⟨_, rfl, ?_⟩
  show (EditorRows.save _ fs).2 = content
  unfold EditorRows.save
  dsimp only
  rw [List.map_map]
  show joinNl ((rustLines content).map (fun it => it)) = content
  rw [List.map_id']
  exact joinNl_rustLines content h1 h2
